import Mathlib

/-!
Shallow embedding of the obsidian-todoist-completed-tasks plugin
(src/main.ts, the Sync-API variant, and src/unnamed/part_000, the v1-API
variant) together with proofs about the date-scoped fetch-and-aggregate
pipeline.

Modelling conventions:
* Instants in time are pairs of a civil (UTC) calendar date and a
  second-of-day; the host timezone is modelled as UTC, so the local and
  UTC calendar day of an instant coincide (the code itself notes that its
  day comparisons are done on UTC-parsed values).
* `requestUrl` results are modelled as `Except String (HttpResponse α)`:
  a transport failure carries its message, a delivered response carries
  its HTTP status, optional parsed JSON body and raw text.
* The JavaScript `Map` is modelled as an association list with
  insertion-order keys (`mapSet` updates in place, appends fresh keys).
* `Array.prototype.sort` is stable; it is modelled by a stable insertion
  sort driven by the source's comparator.
* `String.prototype.localeCompare` is modelled as case-insensitive
  code-point comparison (the spec describes the comparison as
  case-insensitive lexical).
-/

namespace Todoist

/-- A civil calendar date (year, month, day), as carried by a moment. -/
structure Ymd where
  year : Nat
  month : Nat
  day : Nat
deriving DecidableEq

/-- An instant: a UTC calendar date plus a second-of-day (0..86399). -/
structure Instant where
  date : Ymd
  sec : Nat
deriving DecidableEq

/-- Strict calendar order on dates (lexicographic on year, month, day). -/
def Ymd.ltb (a b : Ymd) : Bool :=
  decide (a.year < b.year) ||
    (decide (a.year = b.year) &&
      (decide (a.month < b.month) ||
        (decide (a.month = b.month) && decide (a.day < b.day))))

/-- Instant order: earlier date, or same date and not-later second. -/
def Instant.leb (a b : Instant) : Bool :=
  Ymd.ltb a.date b.date || (decide (a.date = b.date) && decide (a.sec ≤ b.sec))

/-- `moment.startOf('day')`: same date, second 0. -/
def startOfDay (t : Instant) : Instant := ⟨t.date, 0⟩

/-- `moment.endOf('day')`: same date, last second of the day (second
granularity models the 23:59:59.999 endpoint). -/
def endOfDay (t : Instant) : Instant := ⟨t.date, 86399⟩

/-- Comparison of two characters by code point, as an `Ordering`. -/
def charCmp (a b : Char) : Ordering :=
  if a.toNat < b.toNat then .lt else if b.toNat < a.toNat then .gt else .eq

/-- Lexicographic comparison of character lists by code point. -/
def listCmp : List Char → List Char → Ordering
  | [], [] => .eq
  | [], _ :: _ => .lt
  | _ :: _, [] => .gt
  | a :: as, b :: bs =>
    match charCmp a b with
    | .lt => .lt
    | .gt => .gt
    | .eq => listCmp as bs

/-- ASCII lowercasing of one character. -/
def lowerChar (c : Char) : Char :=
  if c.toNat ≥ 65 ∧ c.toNat ≤ 90 then Char.ofNat (c.toNat + 32) else c

/-- Case-insensitive string comparison: compare the lowercased strings
code point by code point. -/
def compareCI (s t : String) : Ordering :=
  listCmp (s.data.map lowerChar) (t.data.map lowerChar)

/-- Model of `String.prototype.localeCompare`: negative, zero or positive
according to the case-insensitive comparison. -/
def localeCompare (s t : String) : Int :=
  match compareCI s t with
  | .lt => -1
  | .eq => 0
  | .gt => 1

/-- `Map.set`: update the value of an existing key in place, otherwise
append the new entry (JavaScript `Map` keeps insertion order). -/
def mapSet (m : List (String × String)) (k v : String) : List (String × String) :=
  match m with
  | [] => [(k, v)]
  | (k', v') :: rest => if k' = k then (k, v) :: rest else (k', v') :: mapSet rest k v

/-- `Map.get`: the value of the first (hence only) entry with this key. -/
def mapGet (m : List (String × String)) (k : String) : Option String :=
  match m with
  | [] => none
  | (k', v) :: rest => if k' = k then some v else mapGet rest k

/-- The grouping key used for a task: `task.project_id || null` — the
empty string is falsy in JavaScript and is coerced to `null`. -/
def normKeyOf (pid : String) : Option String :=
  if pid = "" then none else some pid

/-- One step of the grouping loop: append the item to the entry holding
its key, or create a fresh entry at the end (JavaScript `Map` semantics:
`tasksByProject.get(k).push(task)` after `set(k, [])` on a miss). -/
def pushItem {α : Type} (key : α → Option String)
    (acc : List (Option String × List α)) (t : α) : List (Option String × List α) :=
  match acc with
  | [] => [(key t, [t])]
  | (k, g) :: rest =>
    if k = key t then (k, g ++ [t]) :: rest else (k, g) :: pushItem key rest t

/-- The grouping loop over the fetched items, in fetch order. -/
def groupBy {α : Type} (key : α → Option String) (items : List α) :
    List (Option String × List α) :=
  items.foldl (pushItem key) []

/-- The keys of a list of items in order of first occurrence. -/
def firstKeysBy {α : Type} (key : α → Option String) : List α → List (Option String)
  | [] => []
  | t :: ts => key t :: (firstKeysBy key ts).filter (fun k => !decide (k = key t))

/-- The `TodoistProject` interface: id, name and color. -/
structure TodoistProject where
  id : String
  name : String
  color : String
deriving DecidableEq

/-- The `TodoistProjectResponse` payload: a result list (absent when the
response lacks the field, i.e. `data.results` is falsy) and an opaque
continuation cursor. -/
structure TodoistProjectResponse where
  results : Option (List TodoistProject)
  next_cursor : Option String
deriving DecidableEq

/-- The `TodoistCompletedTask` interface of the v1-API variant. -/
structure TodoistCompletedTask where
  id : String
  project_id : String
  section_id : String
  labels : List String
  checked : Bool
  is_deleted : Bool
  content : String
  description : String
  priority : Nat
deriving DecidableEq

/-- The `TodoistCompletedTasksResponse` payload: an item list (absent when
`data.items` is falsy) and an opaque continuation cursor. -/
structure TodoistCompletedTasksResponse where
  items : Option (List TodoistCompletedTask)
  next_cursor : Option String
deriving DecidableEq

/-- A delivered HTTP response as seen through `requestUrl`: status code,
parsed JSON body (absent when falsy) and raw text. -/
structure HttpResponse (α : Type) where
  status : Nat
  json : Option α
  text : String

/-- A task record with only the claim-relevant fields set. -/
def mkTask (id pid content : String) : TodoistCompletedTask :=
  ⟨id, pid, "", [], true, false, content, "", 1⟩

/-- The project map built from one response page:
`data.results.forEach(p => projectsMap.set(p.id, p.name))`. -/
def buildProjectsMap (results : List TodoistProject) : List (String × String) :=
  results.foldl (fun m p => mapSet m p.id p.name) []

/-- `fetchProjectData` (part_000 lines 81-115): reject a missing token,
then issue a single request; a non-200 status raises inside the `try`
block and — like a transport failure — is re-thrown wrapped in
`Failed to fetch project data: ...`; a missing body or result list yields
an empty map; otherwise the single page's id-to-name map is returned.
The response's `next_cursor` field is never read. -/
def fetchProjectData (token : String)
    (resp : Except String (HttpResponse TodoistProjectResponse)) :
    Except String (List (String × String)) :=
  if token = "" then .error "Todoist API token is not set."
  else
    match resp with
    | .error msg => .error ("Failed to fetch project data: " ++ msg)
    | .ok r =>
      if r.status ≠ 200 then
        .error ("Failed to fetch project data: " ++
          "Todoist Get Projects API error: " ++ toString r.status ++ " - " ++ r.text)
      else
        match r.json with
        | none => .ok []
        | some data =>
          match data.results with
          | none => .ok []
          | some results => .ok (buildProjectsMap results)

/-- The sort name of a group key, as computed inside the comparator:
`a ? projects.get(a) ?? 'Unknown Project' : 'No Project'` (note: no id
suffix on the unknown-project sort name). -/
def sortName (projects : List (String × String)) (k : Option String) : String :=
  match k with
  | none => "No Project"
  | some id => if id = "" then "No Project" else (mapGet projects id).getD "Unknown Project"

/-- The comparator passed to `Array.prototype.sort` over the group keys:
the null key sorts last, all other pairs by `localeCompare` of the sort
names. -/
def comparatorKeys (projects : List (String × String)) (a b : Option String) : Int :=
  if a = none then 1
  else if b = none then -1
  else localeCompare (sortName projects a) (sortName projects b)

/-- Stable insertion of one element: the new element passes every element
it does not strictly precede, so ties keep first-come order. -/
def insertSorted {α : Type} (lt : α → α → Bool) (x : α) : List α → List α
  | [] => [x]
  | y :: ys => if lt x y then x :: y :: ys else y :: insertSorted lt x ys

/-- Stable sort (JavaScript `Array.prototype.sort` is stable): insert the
elements left to right. -/
def stableSort {α : Type} (lt : α → α → Bool) (l : List α) : List α :=
  l.foldl (fun acc x => insertSorted lt x acc) []

/-- `Array.from(tasksByProject.keys()).sort(comparator)`. -/
def sortKeys (projects : List (String × String)) (keys : List (Option String)) :
    List (Option String) :=
  stableSort (fun a b => decide (comparatorKeys projects a b < 0)) keys

/-- The heading name rendered for a group (part_000 lines 232-242):
`projectName` is the directory name of a truthy key; a truthy name is
rendered as-is, otherwise a literally null key renders `No Project` and
any other key renders `Unknown Project (ID: <id>)`. -/
def headingName (projects : List (String × String)) (k : Option String) : String :=
  let projectName : Option String :=
    match k with
    | none => none
    | some id => if id = "" then none else mapGet projects id
  match projectName with
  | some n =>
    if n ≠ "" then n
    else
      match k with
      | none => "No Project"
      | some id => "Unknown Project (ID: " ++ id ++ ")"
  | none =>
    match k with
    | none => "No Project"
    | some id => "Unknown Project (ID: " ++ id ++ ")"

/-- One rendered task line:
``- [<content or Task ID id>](https://todoist.com/showTask?id=<id>)``. -/
def taskLine (id content : String) : String :=
  "- [" ++ (if content = "" then "Task ID " ++ id else content) ++
    "](https://todoist.com/showTask?id=" ++ id ++ ")\n"

/-- `tasksByProject.get(projectId)`: first (only) group with this key. -/
def lookupGroup {α : Type} (groups : List (Option String × List α)) (k : Option String) :
    Option (List α) :=
  match groups with
  | [] => none
  | (k', g) :: rest => if k' = k then some g else lookupGroup rest k

/-- Render one group: subheading, one line per task in group order, and a
blank-line separator. -/
def renderGroup {α : Type} (idOf contentOf : α → String)
    (projects : List (String × String)) (groups : List (Option String × List α))
    (k : Option String) : String :=
  let tasks := (lookupGroup groups k).getD []
  "### " ++ headingName projects k ++ "\n" ++
    tasks.foldl (fun md t => md ++ taskLine (idOf t) (contentOf t)) "" ++ "\n"

/-- Render all groups in sorted key order. -/
def renderGroups {α : Type} (idOf contentOf : α → String)
    (projects : List (String × String)) (groups : List (Option String × List α))
    (sortedIds : List (Option String)) : String :=
  sortedIds.foldl (fun md k => md ++ renderGroup idOf contentOf projects groups k) ""

/-- Zero-pad a number to a width. -/
def padNum (w n : Nat) : String :=
  let s := toString n
  ⟨List.replicate (w - s.length) '0'⟩ ++ s

/-- `moment.format('YYYY-MM-DD')` of a date. -/
def renderYMD (d : Ymd) : String :=
  padNum 4 d.year ++ "-" ++ padNum 2 d.month ++ "-" ++ padNum 2 d.day

/-- `moment.toISOString()` of an instant (milliseconds are not modelled,
so the fraction is rendered as `.000`). -/
def isoString (i : Instant) : String :=
  renderYMD i.date ++ "T" ++ padNum 2 (i.sec / 3600) ++ ":" ++
    padNum 2 (i.sec % 3600 / 60) ++ ":" ++ padNum 2 (i.sec % 60) ++ ".000Z"

namespace V1

/-- The per-request page bound of the completed-task fetch
(`const limit = 100`). -/
def limit : Nat := 100

/-- `since` query bound: start of the target day. -/
def sinceDate (target : Instant) : Instant := startOfDay target

/-- `until` query bound: end of the target day. -/
def untilDate (target : Instant) : Instant := endOfDay target

/-- The completed-task query URL (part_000 line 182). -/
def apiUrl (target : Instant) : String :=
  "https://todoist.com/api/v1/tasks/completed/by_completion_date?since=" ++
    isoString (sinceDate target) ++ "&until=" ++ isoString (untilDate target) ++
    "&limit=" ++ toString limit

/-- Grouping key of a v1 task: `task.project_id || null`. -/
def taskKey (t : TodoistCompletedTask) : Option String := normKeyOf t.project_id

/-- The grouping step over the fetched items (part_000 lines 210-218). -/
def groupTasks (items : List TodoistCompletedTask) :
    List (Option String × List TodoistCompletedTask) :=
  groupBy taskKey items

/-- `fetchAndFormatTasksForDate` (part_000 lines 164-255) as a pure
function of the configuration, the two service responses, the target
instant and the current instant. Errors are returned through `Except`
exactly where the code throws; the returned string is the Markdown
output. -/
def fetchAndFormatTasksForDate (token : String)
    (projResp : Except String (HttpResponse TodoistProjectResponse))
    (taskResp : Except String (HttpResponse TodoistCompletedTasksResponse))
    (target now : Instant) : Except String String :=
  if token = "" then .error "Todoist API token is not set."
  else
    match fetchProjectData token projResp with
    | .error e => .error e
    | .ok projects =>
      let targetDateString := renderYMD target.date
      match taskResp with
      | .error e => .error e
      | .ok resp =>
        if resp.status ≠ 200 then
          .error ("Todoist Activity API error: " ++ toString resp.status ++ " - " ++ resp.text)
        else
          match resp.json with
          | none => .error "Invalid response structure from Todoist completed tasks API"
          | some data =>
            match data.items with
            | none => .error "Invalid response structure from Todoist completed tasks API"
            | some items =>
              if items.length = 0 then .ok ""
              else
                let tasksByProject := groupTasks items
                let friendlyDateString :=
                  if target.date = now.date then "Today" else targetDateString
                let header := "## Tasks Completed " ++ friendlyDateString ++ "\n\n"
                let sortedProjectIds := sortKeys projects (tasksByProject.map Prod.fst)
                .ok (header ++
                  renderGroups TodoistCompletedTask.id TodoistCompletedTask.content
                    projects tasksByProject sortedProjectIds)

end V1

namespace Sync

/-- An activity event of the Sync-API variant (main.ts): a record with
the completed item's id, its parent project id (empty when the service
omits it), an optional completion instant (`event.event_date` may be
missing) and the optional task content from `extra_data`. -/
structure ActivityEvent where
  object_id : String
  parent_project_id : String
  event_date : Option Instant
  extra_content : String
deriving DecidableEq

/-- The local date filter (main.ts lines 190-196): keep events carrying a
completion instant whose UTC day equals the target's day. -/
def completedOnDate (events : List ActivityEvent) (target : Instant) :
    List ActivityEvent :=
  events.filter fun e =>
    match e.event_date with
    | none => false
    | some d => decide (d.date = target.date)

/-- Grouping key of an activity event: `event.parent_project_id || null`. -/
def eventKey (e : ActivityEvent) : Option String := normKeyOf e.parent_project_id

/-- The groups the Sync-variant aggregator renders: the date-filtered
events grouped by project key (main.ts lines 204-212). -/
def outputGroups (events : List ActivityEvent) (target : Instant) :
    List (Option String × List ActivityEvent) :=
  groupBy eventKey (completedOnDate events target)

end Sync

/-- A date-format token as understood by moment: a 4-digit year, a
2-digit month, a 2-digit day, or a literal character. -/
inductive FmtToken where
  | YYYY
  | MM
  | DD
  | lit (c : Char)
deriving DecidableEq

/-- The default daily-note format, `YYYY-MM-DD`. -/
def defaultFormat : List FmtToken := [.YYYY, .lit '-', .MM, .lit '-', .DD]

/-- Read exactly `n` digits, returning their value and the rest. -/
def takeDigitsAux : Nat → Nat → List Char → Option (Nat × List Char)
  | 0, acc, cs => some (acc, cs)
  | _ + 1, _, [] => none
  | n + 1, acc, c :: cs =>
    if c.isDigit then takeDigitsAux n (acc * 10 + (c.toNat - 48)) cs else none

/-- Read exactly `n` digits starting from value 0. -/
def takeDigits (n : Nat) (cs : List Char) : Option (Nat × List Char) :=
  takeDigitsAux n 0 cs

/-- Match the format tokens against the input end-to-end, collecting the
year, month and day fields (later occurrences of a token override
earlier ones); fail on any mismatch or leftover input. -/
def parseTokens : List FmtToken → List Char → Option Nat → Option Nat → Option Nat →
    Option (Option Nat × Option Nat × Option Nat)
  | [], cs, y, m, d => if cs.isEmpty then some (y, m, d) else none
  | .YYYY :: rest, cs, _, m, d =>
    match takeDigits 4 cs with
    | none => none
    | some (v, cs') => parseTokens rest cs' (some v) m d
  | .MM :: rest, cs, y, _, d =>
    match takeDigits 2 cs with
    | none => none
    | some (v, cs') => parseTokens rest cs' y (some v) d
  | .DD :: rest, cs, y, m, _ =>
    match takeDigits 2 cs with
    | none => none
    | some (v, cs') => parseTokens rest cs' y m (some v)
  | .lit ch :: rest, cs, y, m, d =>
    match cs with
    | [] => none
    | c :: cs' => if c = ch then parseTokens rest cs' y m d else none

/-- Gregorian leap year. -/
def isLeap (y : Nat) : Bool :=
  decide (y % 4 = 0) && (!decide (y % 100 = 0) || decide (y % 400 = 0))

/-- Days in a month of a year. -/
def daysInMonth (y m : Nat) : Nat :=
  if m = 2 then (if isLeap y then 29 else 28)
  else if m = 4 ∨ m = 6 ∨ m = 9 ∨ m = 11 then 30
  else 31

/-- Model of `moment(s, fmt, true)` (strict parsing by the moment
library, which is a dependency, not repository code): the whole input
must match the format token by token, and the resulting fields must form
a real calendar date; a field absent from the format defaults (year from
the current date, the rest to their minimum, as moment defaults missing
units). -/
def momentParseStrict (now : Ymd) (s : String) (fmt : List FmtToken) : Option Ymd :=
  match parseTokens fmt s.data none none none with
  | none => none
  | some (y?, m?, d?) =>
    let y := y?.getD now.year
    let m := m?.getD 1
    let d := d?.getD 1
    if 1 ≤ m ∧ m ≤ 12 ∧ 1 ≤ d ∧ d ≤ daysInMonth y m then some ⟨y, m, d⟩ else none

/-- The rendered length of a format: every token is fixed width. -/
def fmtLength : List FmtToken → Nat
  | [] => 0
  | .YYYY :: rest => 4 + fmtLength rest
  | .MM :: rest => 2 + fmtLength rest
  | .DD :: rest => 2 + fmtLength rest
  | .lit _ :: rest => 1 + fmtLength rest

/-- `moment.format(fmt)` of a date over the token language. -/
def renderFmt (d : Ymd) : List FmtToken → String
  | [] => ""
  | .YYYY :: rest => padNum 4 d.year ++ renderFmt d rest
  | .MM :: rest => padNum 2 d.month ++ renderFmt d rest
  | .DD :: rest => padNum 2 d.day ++ renderFmt d rest
  | .lit c :: rest => String.singleton c ++ renderFmt d rest

/-- The date-resolution step of `fetchAndInsertTasksForView` (part_000
lines 124-138): default to now with the label `today`; with a file
basename, strict-parse it against the configured format (the empty
format string is falsy and defaults to `YYYY-MM-DD`); on success the
target becomes the parsed date at midnight with the label
`note filename (<formatted-date>)`. -/
def resolveTargetDate (basename : Option String) (fmtSetting : List FmtToken)
    (now : Instant) : Instant × String :=
  let dailyNoteFormat := if fmtSetting = [] then defaultFormat else fmtSetting
  match basename with
  | none => (now, "today")
  | some b =>
    match momentParseStrict now.date b dailyNoteFormat with
    | none => (now, "today")
    | some d => (⟨d, 0⟩, "note filename (" ++ renderFmt d dailyNoteFormat ++ ")")

/-- The observable outcome of one editor command invocation: what was
inserted at the cursor (if anything) and the notices shown. -/
structure ViewOutcome where
  inserted : Option String
  notices : List String
deriving DecidableEq

/-- `fetchAndInsertTasksForView` (part_000 lines 124-155): resolve the
target date, bail out with a notice when no token is configured, then
run the pipeline; its Markdown goes to `editor.replaceSelection`, while
any error is caught and surfaced as an `Error: ...` notice with nothing
inserted. -/
def fetchAndInsertTasksForView (token : String) (fmtSetting : List FmtToken)
    (basename : Option String) (now : Instant)
    (projResp : Except String (HttpResponse TodoistProjectResponse))
    (taskResp : Except String (HttpResponse TodoistCompletedTasksResponse)) :
    ViewOutcome :=
  let r := resolveTargetDate basename fmtSetting now
  if token = "" then
    ⟨none, ["Todoist API token is not set. Please configure it in the plugin settings."]⟩
  else
    let fetching := "Fetching Todoist tasks completed for " ++ r.2 ++ "..."
    match V1.fetchAndFormatTasksForDate token projResp taskResp r.1 now with
    | .ok md => ⟨some md, [fetching]⟩
    | .error e => ⟨none, [fetching, "Error: " ++ e]⟩

/-! ### Grouping lemmas -/

theorem firstKeysBy_nodup {α : Type} (key : α → Option String) (l : List α) :
    (firstKeysBy key l).Nodup := by
  induction l with
  | nil => simp [firstKeysBy]
  | cons t ts ih =>
    simp only [firstKeysBy, List.nodup_cons]
    refine ⟨fun hmem => ?_, ih.filter _⟩
    have := (List.mem_filter.mp hmem).2
    simp at this

theorem mem_firstKeysBy {α : Type} (key : α → Option String) (l : List α) :
    ∀ u ∈ l, key u ∈ firstKeysBy key l := by
  induction l with
  | nil => intro u hu; cases hu
  | cons t ts ih =>
    intro u hu
    rcases List.mem_cons.mp hu with h | h
    · subst h; simp [firstKeysBy]
    · by_cases hk : key u = key t
      · rw [hk]; simp [firstKeysBy]
      · exact List.mem_cons.mpr (Or.inr (List.mem_filter.mpr ⟨ih u h, by simp [hk]⟩))

theorem firstKeysBy_sub {α : Type} (key : α → Option String) (l : List α) :
    ∀ k ∈ firstKeysBy key l, ∃ u ∈ l, key u = k := by
  induction l with
  | nil => intro k hk; cases hk
  | cons t ts ih =>
    intro k hk
    rcases List.mem_cons.mp hk with h | h
    · exact ⟨t, List.mem_cons_self t ts, h.symm⟩
    · obtain ⟨u, hu, hku⟩ := ih k (List.mem_filter.mp h).1
      exact ⟨u, List.mem_cons_of_mem t hu, hku⟩

theorem firstKeysBy_cons {α : Type} (key : α → Option String) (t : α) (ts : List α) :
    firstKeysBy key (t :: ts) =
      key t :: (firstKeysBy key ts).filter (fun k => !decide (k = key t)) := rfl

theorem firstKeysBy_append_one {α : Type} (key : α → Option String) (pr : List α) (t : α) :
    firstKeysBy key (pr ++ [t]) =
      if key t ∈ firstKeysBy key pr then firstKeysBy key pr
      else firstKeysBy key pr ++ [key t] := by
  induction pr with
  | nil => simp [firstKeysBy]
  | cons u us ih =>
    rw [List.cons_append, firstKeysBy_cons, firstKeysBy_cons, ih]
    by_cases h1 : key t ∈ firstKeysBy key us
    · rw [if_pos h1]
      have hmem : key t ∈ key u ::
          (firstKeysBy key us).filter (fun k => !decide (k = key u)) := by
        by_cases h2 : key t = key u
        · simp [h2]
        · exact List.mem_cons.mpr (Or.inr (List.mem_filter.mpr ⟨h1, by simp [h2]⟩))
      rw [if_pos hmem]
    · rw [if_neg h1]
      by_cases h2 : key t = key u
      · have hmem : key t ∈ key u ::
            (firstKeysBy key us).filter (fun k => !decide (k = key u)) := by simp [h2]
        rw [if_pos hmem, List.filter_append]
        simp [h2]
      · have hmem : key t ∉ key u ::
            (firstKeysBy key us).filter (fun k => !decide (k = key u)) := by
          intro hc
          rcases List.mem_cons.mp hc with hc1 | hc2
          · exact h2 hc1
          · exact h1 (List.mem_filter.mp hc2).1
        rw [if_neg hmem, List.filter_append]
        simp [h2]

theorem pushItem_fst {α : Type} (key : α → Option String)
    (acc : List (Option String × List α)) (t : α) :
    (pushItem key acc t).map Prod.fst =
      if key t ∈ acc.map Prod.fst then acc.map Prod.fst
      else acc.map Prod.fst ++ [key t] := by
  induction acc with
  | nil => simp [pushItem]
  | cons q rest ih =>
    obtain ⟨k, g⟩ := q
    by_cases hk : k = key t
    · subst hk
      simp [pushItem]
    · simp only [pushItem, if_neg hk, List.map_cons, ih]
      by_cases h1 : key t ∈ rest.map Prod.fst
      · rw [if_pos h1, if_pos (List.mem_cons.mpr (Or.inr h1))]
      · rw [if_neg h1, if_neg, List.cons_append]
        intro hc
        rcases List.mem_cons.mp hc with hc1 | hc2
        · exact hk hc1.symm
        · exact h1 hc2

theorem pushItem_entries {α : Type} (key : α → Option String)
    (acc : List (Option String × List α)) (t : α)
    (hnd : (acc.map Prod.fst).Nodup) :
    ∀ p ∈ pushItem key acc t,
      (p ∈ acc ∧ p.1 ≠ key t) ∨
      (p.1 = key t ∧
        ((key t ∉ acc.map Prod.fst ∧ p.2 = [t]) ∨
         (∃ g, (key t, g) ∈ acc ∧ p.2 = g ++ [t]))) := by
  induction acc with
  | nil =>
    intro p hp
    simp only [pushItem, List.mem_singleton] at hp
    subst hp
    exact Or.inr ⟨rfl, Or.inl ⟨by simp, rfl⟩⟩
  | cons q rest ih =>
    obtain ⟨k, g⟩ := q
    simp only [List.map_cons, List.nodup_cons] at hnd
    obtain ⟨hknotin, hndrest⟩ := hnd
    intro p hp
    by_cases hk : k = key t
    · subst hk
      simp only [pushItem, if_pos rfl] at hp
      rcases List.mem_cons.mp hp with h | h
      · subst h
        exact Or.inr ⟨rfl, Or.inr ⟨g, List.mem_cons_self _ _, rfl⟩⟩
      · refine Or.inl ⟨List.mem_cons_of_mem _ h, fun hc => ?_⟩
        exact hknotin (hc ▸ List.mem_map_of_mem Prod.fst h)
    · simp only [pushItem, if_neg hk] at hp
      rcases List.mem_cons.mp hp with h | h
      · subst h
        exact Or.inl ⟨List.mem_cons_self _ _, hk⟩
      · rcases ih hndrest p h with ⟨hmem, hne⟩ | ⟨heq, hcase⟩
        · exact Or.inl ⟨List.mem_cons_of_mem _ hmem, hne⟩
        · refine Or.inr ⟨heq, ?_⟩
          rcases hcase with ⟨hnot, hp2⟩ | ⟨g', hg', hp2⟩
          · refine Or.inl ⟨fun hc => ?_, hp2⟩
            rcases List.mem_cons.mp hc with hc1 | hc2
            · exact hk hc1.symm
            · exact hnot hc2
          · exact Or.inr ⟨g', List.mem_cons_of_mem _ hg', hp2⟩

theorem pushItem_flatten {α : Type} (key : α → Option String)
    (acc : List (Option String × List α)) (t : α) :
    List.Perm ((pushItem key acc t).map Prod.snd).flatten
      ((acc.map Prod.snd).flatten ++ [t]) := by
  induction acc with
  | nil => simp [pushItem]
  | cons q rest ih =>
    obtain ⟨k, g⟩ := q
    by_cases hk : k = key t
    · subst hk
      have hpush : pushItem key ((key t, g) :: rest) t = (key t, g ++ [t]) :: rest := by
        simp [pushItem]
      rw [hpush]
      simp only [List.map_cons, List.flatten_cons, List.append_assoc]
      exact List.Perm.append_left g List.perm_append_comm
    · have hpush : pushItem key ((k, g) :: rest) t = (k, g) :: pushItem key rest t := by
        simp [pushItem, hk]
      rw [hpush]
      simp only [List.map_cons, List.flatten_cons, List.append_assoc]
      exact List.Perm.append_left g ih

theorem groupBy_invariant {α : Type} (key : α → Option String) :
    ∀ (items : List α) (acc : List (Option String × List α)) (pr : List α),
      acc.map Prod.fst = firstKeysBy key pr →
      (∀ p ∈ acc, p.2 = pr.filter (fun u => decide (key u = p.1))) →
      List.Perm ((acc.map Prod.snd).flatten) pr →
      ((items.foldl (pushItem key) acc).map Prod.fst = firstKeysBy key (pr ++ items)) ∧
      (∀ p ∈ items.foldl (pushItem key) acc,
        p.2 = (pr ++ items).filter (fun u => decide (key u = p.1))) ∧
      List.Perm (((items.foldl (pushItem key) acc).map Prod.snd).flatten) (pr ++ items) := by
  intro items
  induction items with
  | nil =>
    intro acc pr h1 h2 h3
    simp only [List.foldl_nil, List.append_nil]
    exact ⟨h1, h2, h3⟩
  | cons t ts ih =>
    intro acc pr h1 h2 h3
    have hnd : (acc.map Prod.fst).Nodup := h1 ▸ firstKeysBy_nodup key pr
    have i1 : (pushItem key acc t).map Prod.fst = firstKeysBy key (pr ++ [t]) := by
      rw [pushItem_fst, firstKeysBy_append_one, h1]
    have i2 : ∀ p ∈ pushItem key acc t,
        p.2 = (pr ++ [t]).filter (fun u => decide (key u = p.1)) := by
      intro p hp
      rw [List.filter_append]
      rcases pushItem_entries key acc t hnd p hp with ⟨hmem, hne⟩ | ⟨heq, hcase⟩
      · have hf : decide (key t = p.1) = false := by
          simp only [decide_eq_false_iff_not]
          exact fun h => hne h.symm
        rw [h2 p hmem]
        simp [hf]
      · rcases hcase with ⟨hnot, hp2⟩ | ⟨g, hg, hp2⟩
        · have hfil : pr.filter (fun u => decide (key u = key t)) = [] := by
            apply List.filter_eq_nil_iff.mpr
            intro u hu hc
            have hut : key u = key t := of_decide_eq_true hc
            rw [h1] at hnot
            exact hnot (hut ▸ mem_firstKeysBy key pr u hu)
          rw [heq, hp2, hfil]
          simp
        · have hgval : g = pr.filter (fun u => decide (key u = key t)) := h2 (key t, g) hg
          rw [heq, hp2, ← hgval]
          simp
    have i3 : List.Perm (((pushItem key acc t).map Prod.snd).flatten) (pr ++ [t]) :=
      (pushItem_flatten key acc t).trans (List.Perm.append_right [t] h3)
    have hmain := ih (pushItem key acc t) (pr ++ [t]) i1 i2 i3
    rw [show pr ++ t :: ts = (pr ++ [t]) ++ ts by simp]
    simpa only [List.foldl_cons] using hmain

theorem groupBy_char {α : Type} (key : α → Option String) (items : List α) :
    ((groupBy key items).map Prod.fst = firstKeysBy key items) ∧
    (∀ p ∈ groupBy key items, p.2 = items.filter (fun u => decide (key u = p.1))) ∧
    List.Perm (((groupBy key items).map Prod.snd).flatten) items := by
  have h := groupBy_invariant key items [] [] (by simp [firstKeysBy]) (by simp) (by simp)
  simpa [groupBy] using h

/-! ### Sorting lemmas -/

theorem insertSorted_perm {α : Type} (lt : α → α → Bool) (x : α) :
    ∀ l, List.Perm (insertSorted lt x l) (x :: l) := by
  intro l
  induction l with
  | nil => simp [insertSorted]
  | cons y ys ih =>
    rw [insertSorted]
    by_cases h : lt x y = true
    · rw [if_pos h]
    · rw [if_neg h]
      exact List.Perm.trans (List.Perm.cons y ih) (List.Perm.swap x y ys)

theorem foldl_insert_perm {α : Type} (lt : α → α → Bool) :
    ∀ (l acc : List α),
      List.Perm (l.foldl (fun a x => insertSorted lt x a) acc) (acc ++ l) := by
  intro l
  induction l with
  | nil => intro acc; simp
  | cons x xs ih =>
    intro acc
    simp only [List.foldl_cons]
    have h1 := ih (insertSorted lt x acc)
    have h2 : List.Perm (insertSorted lt x acc ++ xs) ((x :: acc) ++ xs) :=
      List.Perm.append_right xs (insertSorted_perm lt x acc)
    have h3 : List.Perm ((x :: acc) ++ xs) (acc ++ x :: xs) := by
      simp only [List.cons_append]
      exact List.perm_middle.symm
    exact (h1.trans h2).trans h3

theorem stableSort_perm {α : Type} (lt : α → α → Bool) (l : List α) :
    List.Perm (stableSort lt l) l := by
  simpa [stableSort] using foldl_insert_perm lt l []

theorem insertSorted_chain {α : Type} {R : α → α → Prop} (lt : α → α → Bool) (x : α)
    (H1 : ∀ y, lt x y = true → R x y) (H2 : ∀ y, lt x y = false → R y x) :
    ∀ l, List.Chain' R l → List.Chain' R (insertSorted lt x l) := by
  intro l
  induction l with
  | nil => intro _; simp [insertSorted]
  | cons y ys ih =>
    intro hch
    rw [insertSorted]
    by_cases h : lt x y = true
    · rw [if_pos h]
      exact List.chain'_cons.mpr ⟨H1 y h, hch⟩
    · have hf : lt x y = false := by revert h; cases lt x y <;> simp
      rw [if_neg h]
      obtain ⟨hhead, hys⟩ := List.chain'_cons'.mp hch
      refine List.chain'_cons'.mpr ⟨?_, ih hys⟩
      intro b hb
      cases ys with
      | nil =>
        simp [insertSorted] at hb
        subst hb
        exact H2 y hf
      | cons z zs =>
        rw [insertSorted] at hb
        by_cases hz : lt x z = true
        · rw [if_pos hz] at hb
          simp only [List.head?_cons, Option.mem_def, Option.some.injEq] at hb
          subst hb
          exact H2 y hf
        · rw [if_neg hz] at hb
          simp only [List.head?_cons, Option.mem_def, Option.some.injEq] at hb
          subst hb
          exact hhead z (by simp)

theorem foldl_insert_chain {α : Type} {R : α → α → Prop} (lt : α → α → Bool)
    (H1 : ∀ x y, lt x y = true → R x y) (H2 : ∀ x y, lt x y = false → R y x) :
    ∀ (l acc : List α), List.Chain' R acc →
      List.Chain' R (l.foldl (fun a x => insertSorted lt x a) acc) := by
  intro l
  induction l with
  | nil => intro acc h; simpa using h
  | cons x xs ih =>
    intro acc h
    simp only [List.foldl_cons]
    exact ih _ (insertSorted_chain lt x (H1 x) (H2 x) acc h)

theorem stableSort_chain {α : Type} {R : α → α → Prop} (lt : α → α → Bool)
    (H1 : ∀ x y, lt x y = true → R x y) (H2 : ∀ x y, lt x y = false → R y x)
    (l : List α) : List.Chain' R (stableSort lt l) :=
  foldl_insert_chain lt H1 H2 l [] List.chain'_nil

theorem insertSorted_filter_neg {α : Type} (lt : α → α → Bool) (p : α → Bool) (x : α)
    (hx : p x = false) :
    ∀ acc, (insertSorted lt x acc).filter p = acc.filter p := by
  intro acc
  induction acc with
  | nil => simp [insertSorted, hx]
  | cons y ys ih =>
    rw [insertSorted]
    by_cases h : lt x y = true
    · rw [if_pos h]
      simp [List.filter_cons, hx]
    · rw [if_neg h]
      simp [List.filter_cons, ih]

theorem insertSorted_filter_pos {α : Type} (lt : α → α → Bool) (p : α → Bool) (x : α)
    (hx : p x = true)
    (hD : ∀ y z, lt x y = true → lt z y = false → lt x z = true)
    (hA : ∀ z, p z = true → lt x z = false) :
    ∀ acc, List.Pairwise (fun a b => lt b a = false) acc →
      (insertSorted lt x acc).filter p = acc.filter p ++ [x] := by
  intro acc
  induction acc with
  | nil => intro _; simp [insertSorted, hx]
  | cons y ys ih =>
    intro hpw
    obtain ⟨hy, hys⟩ := List.pairwise_cons.mp hpw
    rw [insertSorted]
    by_cases h : lt x y = true
    · rw [if_pos h]
      have hfil : (y :: ys).filter p = [] := by
        apply List.filter_eq_nil_iff.mpr
        intro z hz hpz
        rcases List.mem_cons.mp hz with rfl | hz2
        · rw [hA z hpz] at h
          simp at h
        · have h1 : lt z y = false := hy z hz2
          have h2 : lt x z = true := hD y z h h1
          rw [hA z hpz] at h2
          simp at h2
      rw [List.filter_cons, if_pos hx, hfil]
      rfl
    · rw [if_neg h]
      rw [List.filter_cons, List.filter_cons, ih hys]
      by_cases hpy : p y = true <;> simp [hpy]

theorem foldl_insert_filter {α : Type} (lt : α → α → Bool) (p : α → Bool)
    (hAsym : ∀ a b, lt a b = true → lt b a = false)
    (hTrans : ∀ a b c, lt b a = false → lt c b = false → lt c a = false)
    (hD : ∀ x y z, lt x y = true → lt z y = false → lt x z = true)
    (hA : ∀ x z, p x = true → p z = true → lt x z = false) :
    ∀ (l acc : List α), List.Chain' (fun a b => lt b a = false) acc →
      (l.foldl (fun a x => insertSorted lt x a) acc).filter p =
        acc.filter p ++ l.filter p := by
  intro l
  induction l with
  | nil => intro acc _; simp
  | cons x xs ih =>
    intro acc hch
    simp only [List.foldl_cons]
    have hch2 : List.Chain' (fun a b => lt b a = false) (insertSorted lt x acc) :=
      insertSorted_chain lt x (fun y hy => hAsym x y hy) (fun y hy => hy) acc hch
    rw [ih (insertSorted lt x acc) hch2]
    by_cases hpx : p x = true
    · have hpw : List.Pairwise (fun a b => lt b a = false) acc := by
        haveI : IsTrans α (fun a b => lt b a = false) := ⟨hTrans⟩
        exact List.chain'_iff_pairwise.mp hch
      rw [insertSorted_filter_pos lt p x hpx (hD x) (fun z hz => hA x z hpx hz) acc hpw]
      rw [List.filter_cons, if_pos hpx]
      simp
    · rw [insertSorted_filter_neg lt p x (by revert hpx; cases p x <;> simp) acc]
      rw [List.filter_cons, if_neg hpx]

/-! ### Comparison lemmas -/

theorem charCmp_swap (a b : Char) : charCmp b a = (charCmp a b).swap := by
  by_cases h1 : a.toNat < b.toNat
  · have h2 : ¬ b.toNat < a.toNat := by omega
    simp [charCmp, h1, h2, Ordering.swap]
  · by_cases h2 : b.toNat < a.toNat
    · simp [charCmp, h1, h2, Ordering.swap]
    · simp [charCmp, h1, h2, Ordering.swap]

theorem listCmp_cons_cons (a b : Char) (as bs : List Char) :
    listCmp (a :: as) (b :: bs) =
      match charCmp a b with
      | .lt => .lt
      | .gt => .gt
      | .eq => listCmp as bs := rfl

theorem listCmp_swap (l1 : List Char) : ∀ l2, listCmp l2 l1 = (listCmp l1 l2).swap := by
  induction l1 with
  | nil => intro l2; cases l2 <;> simp [listCmp, Ordering.swap]
  | cons a as ih =>
    intro l2
    cases l2 with
    | nil => simp [listCmp, Ordering.swap]
    | cons b bs =>
      rw [listCmp_cons_cons, listCmp_cons_cons, charCmp_swap]
      rcases hc : charCmp a b <;> simp [Ordering.swap, hc, ih bs]

theorem compareCI_swap (s t : String) : compareCI t s = (compareCI s t).swap :=
  listCmp_swap (s.data.map lowerChar) (t.data.map lowerChar)

theorem charCmp_eq_lt_iff (a b : Char) : charCmp a b = .lt ↔ a.toNat < b.toNat := by
  unfold charCmp
  by_cases h1 : a.toNat < b.toNat
  · simp [h1]
  · by_cases h2 : b.toNat < a.toNat <;> simp [h1, h2]

theorem charCmp_eq_eq_iff (a b : Char) : charCmp a b = .eq ↔ a.toNat = b.toNat := by
  unfold charCmp
  by_cases h1 : a.toNat < b.toNat
  · simp [h1]
    omega
  · by_cases h2 : b.toNat < a.toNat
    · simp [h1, h2]
      omega
    · simp [h1, h2]
      omega

theorem listCmp_self : ∀ l : List Char, listCmp l l = .eq := by
  intro l
  induction l with
  | nil => rfl
  | cons a as ih =>
    rw [listCmp_cons_cons, (charCmp_eq_eq_iff a a).mpr rfl]
    exact ih

theorem listCmp_lt_of_lt_of_le :
    ∀ l1 l2 l3 : List Char,
      listCmp l1 l2 = .lt → listCmp l2 l3 ≠ .gt → listCmp l1 l3 = .lt := by
  intro l1
  induction l1 with
  | nil =>
    intro l2 l3 h12 h23
    cases l2 with
    | nil => simp [listCmp] at h12
    | cons b bs =>
      cases l3 with
      | nil => simp [listCmp] at h23
      | cons c cs => simp [listCmp]
  | cons a as ih =>
    intro l2 l3 h12 h23
    cases l2 with
    | nil => simp [listCmp] at h12
    | cons b bs =>
      cases l3 with
      | nil => simp [listCmp] at h23
      | cons c cs =>
        rw [listCmp_cons_cons] at h12 h23 ⊢
        rcases hab : charCmp a b with _ | _ | _ <;> rw [hab] at h12 <;>
          rcases hbc : charCmp b c with _ | _ | _ <;> rw [hbc] at h23
        · have ha := (charCmp_eq_lt_iff a b).mp hab
          have hb := (charCmp_eq_lt_iff b c).mp hbc
          rw [(charCmp_eq_lt_iff a c).mpr (by omega)]
        · have ha := (charCmp_eq_lt_iff a b).mp hab
          have hb := (charCmp_eq_eq_iff b c).mp hbc
          rw [(charCmp_eq_lt_iff a c).mpr (by omega)]
        · exact absurd rfl h23
        · have ha := (charCmp_eq_eq_iff a b).mp hab
          have hb := (charCmp_eq_lt_iff b c).mp hbc
          rw [(charCmp_eq_lt_iff a c).mpr (by omega)]
        · have ha := (charCmp_eq_eq_iff a b).mp hab
          have hb := (charCmp_eq_eq_iff b c).mp hbc
          have h12' : listCmp as bs = .lt := h12
          have h23' : listCmp bs cs ≠ .gt := h23
          rw [(charCmp_eq_eq_iff a c).mpr (by omega)]
          exact ih bs cs h12' h23'
        · exact absurd rfl h23
        · simp at h12
        · simp at h12
        · simp at h12

theorem listCmp_le_trans (l1 l2 l3 : List Char)
    (h12 : listCmp l1 l2 ≠ .gt) (h23 : listCmp l2 l3 ≠ .gt) :
    listCmp l1 l3 ≠ .gt := by
  intro h13
  have h31 : listCmp l3 l1 = .lt := by
    rw [listCmp_swap l1 l3, h13]
    rfl
  have h32 : listCmp l3 l2 = .lt := listCmp_lt_of_lt_of_le l3 l1 l2 h31 h12
  have h23' : listCmp l2 l3 = .gt := by
    rw [listCmp_swap l3 l2, h32]
    rfl
  exact h23 h23'

theorem compareCI_lt_of_lt_of_le (s t u : String) :
    compareCI s t = .lt → compareCI t u ≠ .gt → compareCI s u = .lt :=
  listCmp_lt_of_lt_of_le _ _ _

theorem compareCI_le_trans (s t u : String) :
    compareCI s t ≠ .gt → compareCI t u ≠ .gt → compareCI s u ≠ .gt :=
  listCmp_le_trans _ _ _

theorem compareCI_ne_lt_iff (s t : String) :
    compareCI s t ≠ .lt ↔ compareCI t s ≠ .gt := by
  rw [compareCI_swap s t]
  rcases h : compareCI s t <;> simp [h, Ordering.swap]

/-- The order the group comparator establishes between adjacent rendered
groups: the right neighbour is the null key, or the left is non-null and
its sort name is not case-insensitively greater than the right's. -/
def lePair (projects : List (String × String)) (a b : Option String) : Prop :=
  b = none ∨ (a ≠ none ∧ compareCI (sortName projects a) (sortName projects b) ≠ .gt)

theorem comparatorKeys_lt_lePair (projects : List (String × String)) :
    ∀ a b, decide (comparatorKeys projects a b < 0) = true → lePair projects a b := by
  intro a b h
  have h' : comparatorKeys projects a b < 0 := of_decide_eq_true h
  rcases a with _ | ida
  · simp [comparatorKeys] at h'
  · rcases b with _ | idb
    · exact Or.inl rfl
    · right
      refine ⟨by simp, ?_⟩
      rcases hc : compareCI (sortName projects (some ida)) (sortName projects (some idb)) with
        _ | _ | _
      · simp [hc]
      · simp [comparatorKeys, localeCompare, hc] at h'
      · simp [comparatorKeys, localeCompare, hc] at h'

theorem comparatorKeys_ge_lePair (projects : List (String × String)) :
    ∀ a b, decide (comparatorKeys projects a b < 0) = false → lePair projects b a := by
  intro a b h
  have h' : ¬ comparatorKeys projects a b < 0 := of_decide_eq_false h
  rcases a with _ | ida
  · exact Or.inl rfl
  · rcases b with _ | idb
    · exfalso
      apply h'
      simp [comparatorKeys]
    · right
      refine ⟨by simp, ?_⟩
      rw [compareCI_swap]
      rcases hc : compareCI (sortName projects (some ida)) (sortName projects (some idb)) with
        _ | _ | _
      · exfalso
        apply h'
        simp [comparatorKeys, localeCompare, hc]
      · simp [Ordering.swap]
      · simp [Ordering.swap]

theorem localeCompare_neg_iff (s t : String) :
    localeCompare s t < 0 ↔ compareCI s t = .lt := by
  unfold localeCompare
  rcases h : compareCI s t <;> simp [h]

theorem comparatorKeys_neg_iff (projects : List (String × String)) (a b : Option String) :
    comparatorKeys projects a b < 0 ↔
      a ≠ none ∧ (b = none ∨
        compareCI (sortName projects a) (sortName projects b) = .lt) := by
  rcases a with _ | ia
  · simp [comparatorKeys]
  · rcases b with _ | ib
    · simp [comparatorKeys]
    · simp [comparatorKeys, localeCompare_neg_iff]

theorem keyLt_asymm (projects : List (String × String)) (a b : Option String) :
    decide (comparatorKeys projects a b < 0) = true →
      decide (comparatorKeys projects b a < 0) = false := by
  intro h
  have h1 := of_decide_eq_true h
  apply decide_eq_false
  intro h2
  rw [comparatorKeys_neg_iff] at h1 h2
  obtain ⟨ha, h1'⟩ := h1
  obtain ⟨hb, h2'⟩ := h2
  rcases h1' with hb0 | hcmp1
  · exact hb hb0
  · rcases h2' with ha0 | hcmp2
    · exact ha ha0
    · rw [compareCI_swap (sortName projects a) (sortName projects b), hcmp1] at hcmp2
      simp [Ordering.swap] at hcmp2

theorem keyLe_trans (projects : List (String × String)) (a b c : Option String) :
    decide (comparatorKeys projects b a < 0) = false →
    decide (comparatorKeys projects c b < 0) = false →
    decide (comparatorKeys projects c a < 0) = false := by
  intro hba hcb
  have h1 := of_decide_eq_false hba
  have h2 := of_decide_eq_false hcb
  apply decide_eq_false
  intro hca
  rw [comparatorKeys_neg_iff] at h1 h2 hca
  obtain ⟨hc, hca'⟩ := hca
  have hb : b ≠ none := fun hb0 => h2 ⟨hc, Or.inl hb0⟩
  have hcmpcb : compareCI (sortName projects c) (sortName projects b) ≠ .lt :=
    fun hcmp => h2 ⟨hc, Or.inr hcmp⟩
  have ha : a ≠ none := fun ha0 => h1 ⟨hb, Or.inl ha0⟩
  have hcmpba : compareCI (sortName projects b) (sortName projects a) ≠ .lt :=
    fun hcmp => h1 ⟨hb, Or.inr hcmp⟩
  have hcmpca : compareCI (sortName projects c) (sortName projects a) = .lt := by
    rcases hca' with h | h
    · exact absurd h ha
    · exact h
  have hab : compareCI (sortName projects a) (sortName projects b) ≠ .gt :=
    (compareCI_ne_lt_iff _ _).mp hcmpba
  exact hcmpcb (compareCI_lt_of_lt_of_le _ _ _ hcmpca hab)

theorem keyLt_of_lt_of_ge (projects : List (String × String)) (x y z : Option String) :
    decide (comparatorKeys projects x y < 0) = true →
    decide (comparatorKeys projects z y < 0) = false →
    decide (comparatorKeys projects x z < 0) = true := by
  intro hxy hzy
  have h1 := of_decide_eq_true hxy
  have h2 := of_decide_eq_false hzy
  apply decide_eq_true
  rw [comparatorKeys_neg_iff] at h1 ⊢
  rw [comparatorKeys_neg_iff] at h2
  obtain ⟨hx, h1'⟩ := h1
  refine ⟨hx, ?_⟩
  by_cases hz : z = none
  · exact Or.inl hz
  · right
    have hy : y ≠ none := fun hy0 => h2 ⟨hz, Or.inl hy0⟩
    have hcmpzy : compareCI (sortName projects z) (sortName projects y) ≠ .lt :=
      fun hcmp => h2 ⟨hz, Or.inr hcmp⟩
    have hcmpxy : compareCI (sortName projects x) (sortName projects y) = .lt := by
      rcases h1' with h | h
      · exact absurd h hy
      · exact h
    have hyz : compareCI (sortName projects y) (sortName projects z) ≠ .gt :=
      (compareCI_ne_lt_iff _ _).mp hcmpzy
    exact compareCI_lt_of_lt_of_le _ _ _ hcmpxy hyz

/-- Membership of one sort-name tie class: a non-null group key whose
lowercased sort name is the given word (null keys never tie with anything
under the comparator, so classes are taken among non-null keys). -/
def tieClass (projects : List (String × String)) (w : List Char) (k : Option String) : Bool :=
  decide (k ≠ none) && decide ((sortName projects k).data.map lowerChar = w)

theorem tieClass_not_lt (projects : List (String × String)) (w : List Char)
    (x z : Option String) (hx : tieClass projects w x = true)
    (hz : tieClass projects w z = true) :
    decide (comparatorKeys projects x z < 0) = false := by
  unfold tieClass at hx hz
  rw [Bool.and_eq_true] at hx hz
  have hx2 := of_decide_eq_true hx.2
  have hz2 := of_decide_eq_true hz.2
  apply decide_eq_false
  intro hlt
  rw [comparatorKeys_neg_iff] at hlt
  rcases hlt.2 with h | h
  · exact of_decide_eq_true hz.1 h
  · unfold compareCI at h
    rw [hx2, hz2, listCmp_self w] at h
    simp at h

/-! ### Strict-parsing lemmas -/

theorem takeDigitsAux_length :
    ∀ (n acc : Nat) (cs : List Char) (v : Nat) (cs' : List Char),
      takeDigitsAux n acc cs = some (v, cs') → cs.length = n + cs'.length := by
  intro n
  induction n with
  | zero =>
    intro acc cs v cs' h
    simp only [takeDigitsAux, Option.some.injEq, Prod.mk.injEq] at h
    rw [← h.2]
    omega
  | succ n ih =>
    intro acc cs v cs' h
    cases cs with
    | nil => simp [takeDigitsAux] at h
    | cons c cs0 =>
      rw [takeDigitsAux] at h
      by_cases hd : c.isDigit = true
      · rw [if_pos hd] at h
        have := ih _ cs0 v cs' h
        simp only [List.length_cons]
        omega
      · rw [if_neg hd] at h
        simp at h

theorem parseTokens_length :
    ∀ (fmt : List FmtToken) (cs : List Char) (y m d : Option Nat)
      (r : Option Nat × Option Nat × Option Nat),
      parseTokens fmt cs y m d = some r → cs.length = fmtLength fmt := by
  intro fmt
  induction fmt with
  | nil =>
    intro cs y m d r h
    simp only [parseTokens] at h
    by_cases hc : cs.isEmpty = true
    · rw [List.isEmpty_iff] at hc
      subst hc
      simp [fmtLength]
    · rw [if_neg hc] at h
      simp at h
  | cons tok rest ih =>
    intro cs y m d r h
    cases tok with
    | YYYY =>
      simp only [parseTokens] at h
      rcases htd : takeDigits 4 cs with _ | ⟨v, cs'⟩
      · rw [htd] at h; simp at h
      · rw [htd] at h
        have h1 := ih cs' (some v) m d r h
        have h2 := takeDigitsAux_length 4 0 cs v cs' (by simpa [takeDigits] using htd)
        simp only [fmtLength]
        omega
    | MM =>
      simp only [parseTokens] at h
      rcases htd : takeDigits 2 cs with _ | ⟨v, cs'⟩
      · rw [htd] at h; simp at h
      · rw [htd] at h
        have h1 := ih cs' y (some v) d r h
        have h2 := takeDigitsAux_length 2 0 cs v cs' (by simpa [takeDigits] using htd)
        simp only [fmtLength]
        omega
    | DD =>
      simp only [parseTokens] at h
      rcases htd : takeDigits 2 cs with _ | ⟨v, cs'⟩
      · rw [htd] at h; simp at h
      · rw [htd] at h
        have h1 := ih cs' y m (some v) r h
        have h2 := takeDigitsAux_length 2 0 cs v cs' (by simpa [takeDigits] using htd)
        simp only [fmtLength]
        omega
    | lit ch =>
      cases cs with
      | nil => simp [parseTokens] at h
      | cons c cs0 =>
        simp only [parseTokens] at h
        by_cases hc : c = ch
        · rw [if_pos hc] at h
          have h1 := ih cs0 y m d r h
          simp only [fmtLength, List.length_cons]
          omega
        · rw [if_neg hc] at h
          simp at h

theorem momentParseStrict_length (now : Ymd) (s : String) (fmt : List FmtToken) (d : Ymd)
    (h : momentParseStrict now s fmt = some d) : s.length = fmtLength fmt := by
  unfold momentParseStrict at h
  rcases hp : parseTokens fmt s.data none none none with _ | r
  · rw [hp] at h; simp at h
  · exact parseTokens_length fmt s.data none none none r hp

/-! ### Claim theorems -/

/-- C1: every record that reaches the aggregator's output groups for a
target day has completion day exactly that day. The Sync-variant local
filter admits only events whose UTC completion day equals the target's,
so every member of every group completed on the target day; and the
v1-variant request bounds `since` and `until` span exactly the target
day, so an instant lies between them iff its day is the target day. -/
theorem completed_day_matches_target :
    (∀ (events : List Sync.ActivityEvent) (target : Instant),
      ∀ p ∈ Sync.outputGroups events target, ∀ e ∈ p.2,
        ∃ d, e.event_date = some d ∧ d.date = target.date) ∧
    (∀ (target inst : Instant), inst.sec ≤ 86399 →
      ((Instant.leb (V1.sinceDate target) inst = true ∧
        Instant.leb inst (V1.untilDate target) = true) ↔
        inst.date = target.date)) := by
  constructor
  · intro events target p hp e he
    have hchar := (groupBy_char Sync.eventKey (Sync.completedOnDate events target)).2.1
    have hfil := hchar p hp
    rw [hfil] at he
    have hmem := List.mem_filter.mp he
    have hpred := (List.mem_filter.mp hmem.1).2
    rcases hdate : e.event_date with _ | d
    · rw [hdate] at hpred
      simp at hpred
    · rw [hdate] at hpred
      exact ⟨d, rfl, of_decide_eq_true hpred⟩
  · intro target inst hsec
    obtain ⟨⟨ty, tm, td⟩, ts⟩ := target
    obtain ⟨⟨iy, im, idd⟩, isec⟩ := inst
    simp only [V1.sinceDate, V1.untilDate, startOfDay, endOfDay, Instant.leb, Ymd.ltb,
      Bool.or_eq_true, Bool.and_eq_true, decide_eq_true_eq, Ymd.mk.injEq] at *
    omega

theorem completed_day_matches_target_witness :
    (∃ d, (⟨"a", "1", some ⟨⟨2024, 5, 1⟩, 10⟩, "X"⟩ : Sync.ActivityEvent).event_date =
        some d ∧ d.date = (⟨⟨2024, 5, 1⟩, 0⟩ : Instant).date) ∧
    ((Instant.leb (V1.sinceDate ⟨⟨2024, 5, 1⟩, 0⟩) ⟨⟨2024, 5, 1⟩, 500⟩ = true ∧
      Instant.leb ⟨⟨2024, 5, 1⟩, 500⟩ (V1.untilDate ⟨⟨2024, 5, 1⟩, 0⟩) = true) ↔
      (⟨⟨2024, 5, 1⟩, 500⟩ : Instant).date = (⟨⟨2024, 5, 1⟩, 0⟩ : Instant).date) :=
  ⟨completed_day_matches_target.1 [⟨"a", "1", some ⟨⟨2024, 5, 1⟩, 10⟩, "X"⟩]
      ⟨⟨2024, 5, 1⟩, 0⟩ (some "1", [⟨"a", "1", some ⟨⟨2024, 5, 1⟩, 10⟩, "X"⟩]) (by decide)
      ⟨"a", "1", some ⟨⟨2024, 5, 1⟩, 10⟩, "X"⟩ (by decide),
    completed_day_matches_target.2 ⟨⟨2024, 5, 1⟩, 0⟩ ⟨⟨2024, 5, 1⟩, 500⟩ (by decide)⟩

/-- C2: the completed-task fetch requests pages of 100 items, but it
never reads the response's continuation cursor — the pipeline result is
identical whether the cursor signals further pages or not, and a response
whose cursor does signal further pages still formats as a success rather
than failing. -/
theorem completed_fetch_ignores_cursor :
    V1.limit = 100 ∧
    (∀ (token : String) (projResp : Except String (HttpResponse TodoistProjectResponse))
      (items : Option (List TodoistCompletedTask)) (c txt : String) (target now : Instant),
      V1.fetchAndFormatTasksForDate token projResp
          (.ok ⟨200, some ⟨items, some c⟩, txt⟩) target now =
        V1.fetchAndFormatTasksForDate token projResp
          (.ok ⟨200, some ⟨items, none⟩, txt⟩) target now) ∧
    V1.fetchAndFormatTasksForDate "t" (.ok ⟨200, some ⟨some [], none⟩, ""⟩)
        (.ok ⟨200, some ⟨some [mkTask "a" "9" "Write"], some "next"⟩, ""⟩)
        ⟨⟨2024, 5, 1⟩, 0⟩ ⟨⟨2024, 5, 2⟩, 0⟩ =
      .ok ("## Tasks Completed 2024-05-01\n\n### Unknown Project (ID: 9)\n" ++
        "- [Write](https://todoist.com/showTask?id=a)\n\n") := by
  refine ⟨rfl, ?_, rfl⟩
  intro token projResp items c txt target now
  rfl

/-- C3 counterexample: a first page holding project 1 arrives with a
non-null continuation cursor (a second page would hold project 2), yet
the fetch returns only the first page's mapping — the cursor is not
followed, so the returned mapping is not the complete directory. -/
theorem fetchProjectData_cursor_counterexample :
    fetchProjectData "t" (.ok ⟨200, some ⟨some [⟨"1", "A", "red"⟩], some "c2"⟩, ""⟩) =
      .ok [("1", "A")] ∧
    mapGet [("1", "A")] "2" = none := ⟨rfl, rfl⟩

/-- C3 amended: `fetchProjectData` performs a single request and returns
exactly the delivered page's id-to-name mapping, whatever the
continuation cursor says; the cursor is never read, so pages beyond the
first are silently omitted. -/
theorem fetchProjectData_single_page (token : String)
    (results : Option (List TodoistProject)) (c : Option String) (txt : String)
    (h : token ≠ "") :
    fetchProjectData token (.ok ⟨200, some ⟨results, c⟩, txt⟩) =
      .ok (buildProjectsMap (results.getD [])) := by
  cases results <;> simp [fetchProjectData, h, buildProjectsMap]

theorem fetchProjectData_single_page_witness :
    fetchProjectData "t" (.ok ⟨200, some ⟨some [⟨"7", "Inbox", "blue"⟩], none⟩, ""⟩) =
      .ok [("7", "Inbox")] := by
  rw [fetchProjectData_single_page "t" (some [⟨"7", "Inbox", "blue"⟩]) none "" (by decide)]
  rfl

/-- C4 counterexample: two unknown-project groups with ids 9 and 5 (in
that fetch order) render in that same order, because the comparator
compares the constant sort name `Unknown Project` (a tie) and the stable
sort keeps first-occurrence order — yet the rendered display names
compare case-insensitively as greater-than, so the rendered order is not
sorted by display name. -/
theorem group_order_counterexample :
    V1.fetchAndFormatTasksForDate "t" (.ok ⟨200, some ⟨some [], none⟩, ""⟩)
        (.ok ⟨200, some ⟨some [mkTask "a" "9" "Alpha", mkTask "b" "5" "Beta"], none⟩, ""⟩)
        ⟨⟨2024, 5, 1⟩, 0⟩ ⟨⟨2024, 5, 2⟩, 0⟩ =
      .ok ("## Tasks Completed 2024-05-01\n\n### Unknown Project (ID: 9)\n" ++
        "- [Alpha](https://todoist.com/showTask?id=a)\n\n### Unknown Project (ID: 5)\n" ++
        "- [Beta](https://todoist.com/showTask?id=b)\n\n") ∧
    compareCI (headingName [] (some "9")) (headingName [] (some "5")) = .gt :=
  ⟨rfl, by decide⟩

/-- C4 amended: the rendered group order is a permutation of the groups
in which the null-key group is always last and adjacent non-null groups
are ordered by case-insensitive comparison of their sort names — the
project name for known ids and the constant `Unknown Project` (without
the id suffix) for unknown ids; sort-name ties keep first-occurrence
order: for every tie class (non-null keys with a given lowercased sort
name) the sorted output restricted to that class equals the input
restricted to it. -/
theorem sortKeys_order (projects : List (String × String)) (keys : List (Option String)) :
    List.Perm (sortKeys projects keys) keys ∧
    List.Chain' (lePair projects) (sortKeys projects keys) ∧
    (∀ w : List Char,
      (sortKeys projects keys).filter (tieClass projects w) =
        keys.filter (tieClass projects w)) := by
  refine ⟨stableSort_perm _ keys,
    stableSort_chain _ (comparatorKeys_lt_lePair projects)
      (comparatorKeys_ge_lePair projects) keys, ?_⟩
  intro w
  have h := foldl_insert_filter (fun a b => decide (comparatorKeys projects a b < 0))
    (tieClass projects w) (keyLt_asymm projects) (keyLe_trans projects)
    (keyLt_of_lt_of_ge projects) (tieClass_not_lt projects w) keys [] List.chain'_nil
  simpa [sortKeys, stableSort] using h

/-- C5: grouping is a partition of the fetched sequence — the group keys
are pairwise distinct, each group holds exactly the input tasks bearing
its key in input order, the concatenation of all groups is a permutation
of the input (no duplication, no loss), and every task's key has a
group. -/
theorem grouping_partition (items : List TodoistCompletedTask) :
    ((V1.groupTasks items).map Prod.fst).Nodup ∧
    (∀ p ∈ V1.groupTasks items,
      p.2 = items.filter (fun u => decide (V1.taskKey u = p.1))) ∧
    List.Perm (((V1.groupTasks items).map Prod.snd).flatten) items ∧
    (∀ t ∈ items, V1.taskKey t ∈ (V1.groupTasks items).map Prod.fst) := by
  obtain ⟨h1, h2, h3⟩ := groupBy_char V1.taskKey items
  refine ⟨?_, h2, h3, ?_⟩
  · rw [show (V1.groupTasks items).map Prod.fst = firstKeysBy V1.taskKey items from h1]
    exact firstKeysBy_nodup _ _
  · intro t ht
    rw [show (V1.groupTasks items).map Prod.fst = firstKeysBy V1.taskKey items from h1]
    exact mem_firstKeysBy _ _ t ht

theorem grouping_partition_witness :
    V1.taskKey (mkTask "a" "1" "X") ∈
      (V1.groupTasks [mkTask "a" "1" "X"]).map Prod.fst :=
  (grouping_partition [mkTask "a" "1" "X"]).2.2.2 (mkTask "a" "1" "X") (by simp)

/-- C6: when the fetched completed-task list is empty, the pipeline
returns exactly the empty string, as a success. -/
theorem empty_tasks_empty_string (token : String)
    (projResp : Except String (HttpResponse TodoistProjectResponse))
    (c : Option String) (txt : String) (target now : Instant) (m : List (String × String))
    (htok : token ≠ "") (hproj : fetchProjectData token projResp = .ok m) :
    V1.fetchAndFormatTasksForDate token projResp (.ok ⟨200, some ⟨some [], c⟩, txt⟩)
      target now = .ok "" := by
  simp [V1.fetchAndFormatTasksForDate, htok, hproj]

theorem empty_tasks_empty_string_witness :
    V1.fetchAndFormatTasksForDate "t" (.ok ⟨200, some ⟨some [], none⟩, ""⟩)
      (.ok ⟨200, some ⟨some [], none⟩, ""⟩) ⟨⟨2024, 5, 1⟩, 0⟩ ⟨⟨2024, 5, 1⟩, 0⟩ = .ok "" :=
  empty_tasks_empty_string "t" (.ok ⟨200, some ⟨some [], none⟩, ""⟩) none ""
    ⟨⟨2024, 5, 1⟩, 0⟩ ⟨⟨2024, 5, 1⟩, 0⟩ [] (by decide) rfl

/-- C7 counterexample: project id 1 is present in the directory with the
empty string as its name, yet the rendered heading is the unknown-project
fallback and not the directory name — the code's truthiness test on the
looked-up name sends empty names down the unknown branch. -/
theorem heading_empty_name_counterexample :
    mapGet [("1", "")] "1" = some "" ∧
    headingName [("1", "")] (some "1") = "Unknown Project (ID: 1)" ∧
    "Unknown Project (ID: 1)" ≠ "" := ⟨rfl, rfl, by decide⟩

/-- C7 amended: the heading is the directory name when the key's id maps
to a non-empty name; `No Project` for the null key; and
`Unknown Project (ID: <id>)` when the id is absent from the directory or
its directory name is the empty string (the looked-up name is tested for
truthiness, so an empty name falls through to the unknown branch). -/
theorem headingName_spec (projects : List (String × String)) :
    headingName projects none = "No Project" ∧
    (∀ id, id ≠ "" →
      ((∃ n, mapGet projects id = some n ∧ n ≠ "" ∧
        headingName projects (some id) = n) ∨
       ((mapGet projects id = none ∨ mapGet projects id = some "") ∧
        headingName projects (some id) = "Unknown Project (ID: " ++ id ++ ")"))) := by
  refine ⟨rfl, ?_⟩
  intro id hid
  rcases hm : mapGet projects id with _ | n
  · right
    refine ⟨Or.inl rfl, ?_⟩
    simp [headingName, hid, hm]
  · by_cases hn : n = ""
    · right
      refine ⟨Or.inr ?_, ?_⟩
      · rw [hn]
      · simp [headingName, hid, hm, hn]
    · left
      exact ⟨n, rfl, hn, by simp [headingName, hid, hm, hn]⟩

theorem headingName_spec_witness :
    headingName [("1", "Work")] none = "No Project" ∧
    ((∃ n, mapGet [("1", "Work")] "1" = some n ∧ n ≠ "" ∧
        headingName [("1", "Work")] (some "1") = n) ∨
     ((mapGet [("1", "Work")] "1" = none ∨ mapGet [("1", "Work")] "1" = some "") ∧
      headingName [("1", "Work")] (some "1") = "Unknown Project (ID: " ++ "1" ++ ")")) :=
  ⟨(headingName_spec [("1", "Work")]).1,
    (headingName_spec [("1", "Work")]).2 "1" (by decide)⟩

/-- C8: the date resolver returns the strict-parse result with the
note-filename label when the hint strictly matches the configured
format — and a successful strict match consumes the whole hint, its
length equalling the format's rendered length, so there is no partial
match — and otherwise it silently falls back to the current date with
the label `today`. -/
theorem resolveTargetDate_strict (b : String) (fmt : List FmtToken) (now : Instant)
    (hfmt : fmt ≠ []) :
    (∀ d, momentParseStrict now.date b fmt = some d →
      resolveTargetDate (some b) fmt now =
          (⟨d, 0⟩, "note filename (" ++ renderFmt d fmt ++ ")") ∧
        b.length = fmtLength fmt) ∧
    (momentParseStrict now.date b fmt = none →
      resolveTargetDate (some b) fmt now = (now, "today")) := by
  constructor
  · intro d hd
    refine ⟨?_, momentParseStrict_length now.date b fmt d hd⟩
    simp [resolveTargetDate, hfmt, hd]
  · intro hn
    simp [resolveTargetDate, hfmt, hn]

theorem resolveTargetDate_strict_witness :
    (resolveTargetDate (some "2024-05-01") defaultFormat ⟨⟨2024, 6, 2⟩, 0⟩ =
        (⟨⟨2024, 5, 1⟩, 0⟩,
          "note filename (" ++ renderFmt ⟨2024, 5, 1⟩ defaultFormat ++ ")") ∧
      "2024-05-01".length = fmtLength defaultFormat) :=
  (resolveTargetDate_strict "2024-05-01" defaultFormat ⟨⟨2024, 6, 2⟩, 0⟩ (by decide)).1
    ⟨2024, 5, 1⟩ (by decide)

/-- C9: on every failing run — missing credential, or a pipeline error
from the project-directory fetch or the completed-task fetch — nothing is
ever inserted into the editor, and a pipeline error is surfaced verbatim
as an `Error:` notice. -/
theorem error_aborts_no_insertion (token : String) (fmtSetting : List FmtToken)
    (basename : Option String) (now : Instant)
    (projResp : Except String (HttpResponse TodoistProjectResponse))
    (taskResp : Except String (HttpResponse TodoistCompletedTasksResponse)) :
    (token = "" →
      (fetchAndInsertTasksForView token fmtSetting basename now projResp taskResp).inserted
        = none) ∧
    (token ≠ "" → ∀ e,
      V1.fetchAndFormatTasksForDate token projResp taskResp
          (resolveTargetDate basename fmtSetting now).1 now = .error e →
      (fetchAndInsertTasksForView token fmtSetting basename now projResp taskResp).inserted
          = none ∧
        ("Error: " ++ e) ∈
          (fetchAndInsertTasksForView token fmtSetting basename now projResp taskResp).notices) := by
  constructor
  · intro h
    simp [fetchAndInsertTasksForView, h]
  · intro h e he
    simp [fetchAndInsertTasksForView, h, he]

theorem error_aborts_no_insertion_witness :
    (fetchAndInsertTasksForView "t" [] none ⟨⟨2024, 5, 1⟩, 0⟩
        (.ok ⟨500, none, "boom"⟩) (.ok ⟨200, some ⟨some [], none⟩, ""⟩)).inserted = none ∧
    ("Error: " ++ "Failed to fetch project data: Todoist Get Projects API error: 500 - boom") ∈
      (fetchAndInsertTasksForView "t" [] none ⟨⟨2024, 5, 1⟩, 0⟩
        (.ok ⟨500, none, "boom"⟩) (.ok ⟨200, some ⟨some [], none⟩, ""⟩)).notices :=
  (error_aborts_no_insertion "t" [] none ⟨⟨2024, 5, 1⟩, 0⟩
      (.ok ⟨500, none, "boom"⟩) (.ok ⟨200, some ⟨some [], none⟩, ""⟩)).2 (by decide)
    "Failed to fetch project data: Todoist Get Projects API error: 500 - boom" rfl

/-- C10: a completed task whose project_id is the empty string is grouped
under the null key — `task.project_id || null` coerces the falsy empty
string to null — so no group keyed by the empty-string id ever exists and
the task lands in the null-keyed (`No Project`) group. -/
theorem empty_project_id_no_project_group (items : List TodoistCompletedTask) :
    (∀ p ∈ V1.groupTasks items, p.1 ≠ some "") ∧
    (∀ t ∈ items, t.project_id = "" →
      ∃ p ∈ V1.groupTasks items, p.1 = none ∧ t ∈ p.2) := by
  obtain ⟨h1, h2, h3⟩ := groupBy_char V1.taskKey items
  constructor
  · intro p hp hc
    have hpmem : p.1 ∈ (V1.groupTasks items).map Prod.fst :=
      List.mem_map_of_mem Prod.fst hp
    rw [show (V1.groupTasks items).map Prod.fst = firstKeysBy V1.taskKey items from h1]
      at hpmem
    obtain ⟨u, hu, hku⟩ := firstKeysBy_sub V1.taskKey items p.1 hpmem
    rw [hc] at hku
    unfold V1.taskKey normKeyOf at hku
    by_cases hpid : u.project_id = ""
    · simp [hpid] at hku
    · simp only [if_neg hpid, Option.some.injEq] at hku
      exact hpid hku
  · intro t ht hpid
    have hkey : V1.taskKey t = none := by simp [V1.taskKey, normKeyOf, hpid]
    have hmem : V1.taskKey t ∈ (V1.groupTasks items).map Prod.fst := by
      rw [show (V1.groupTasks items).map Prod.fst = firstKeysBy V1.taskKey items from h1]
      exact mem_firstKeysBy _ _ t ht
    rw [hkey] at hmem
    obtain ⟨p, hp, hfst⟩ := List.mem_map.mp hmem
    refine ⟨p, hp, hfst, ?_⟩
    rw [h2 p hp]
    exact List.mem_filter.mpr ⟨ht, by simp [hkey, hfst]⟩

theorem empty_project_id_witness :
    ∃ p ∈ V1.groupTasks [mkTask "a" "" "X"], p.1 = none ∧ mkTask "a" "" "X" ∈ p.2 :=
  (empty_project_id_no_project_group [mkTask "a" "" "X"]).2 (mkTask "a" "" "X")
    (by simp) rfl

end Todoist





